import Mathlib

/-!
Shallow embedding of the `limitup_lab` core (labels, limits, fill models,
streaks, forward returns, backtest) and proofs of the spec claims.

Conventions used throughout:
* pandas float columns are modelled as `Option ℚ`; `none` stands for
  NaN / an unparseable value after `pd.to_numeric(..., errors="coerce")`.
* normalized trade dates (`YYYYMMDD` strings after
  `pd.to_datetime(...).strftime("%Y%m%d")`) are modelled as `ℕ`; the string
  normalization is strictly monotone on valid dates, so lexicographic string
  order coincides with the numeric order used here.
* instrument codes (`ts_code` strings) are modelled as `ℕ`; only equality
  and a total order (for sorting) of codes matter to the computations.
-/

namespace LimitupLab

/-! ## Event labeler (`labels.py`)

A bar row after `add_limit_prices` / `is_price_limit_applicable`: the raw
OHLC fields, the computed `limit_up_price` column and the
`price_limit_applicable` flag. -/

structure LabelBar where
  openPx : Option ℚ
  highPx : Option ℚ
  lowPx : Option ℚ
  closePx : Option ℚ
  limitUpPrice : Option ℚ
  priceLimitApplicable : Bool
deriving DecidableEq, Repr

/-- `_is_close_to_limit`: `np.isclose(a, b, atol=eps, rtol=0.0)`, i.e.
`|a - b| <= eps`; any NaN operand compares `false`. -/
def is_close_to_limit (v lim : Option ℚ) (eps : ℚ) : Bool :=
  match v, lim with
  | some a, some b => decide (|a - b| ≤ eps)
  | _, _ => false

/-- `label_limit_up` column: applicable AND close within eps of the limit
price AND high within eps of the limit price. -/
def label_limit_up (b : LabelBar) (eps : ℚ) : Bool :=
  b.priceLimitApplicable
    && is_close_to_limit b.closePx b.limitUpPrice eps
    && is_close_to_limit b.highPx b.limitUpPrice eps

/-- `label_one_word` column: limit-up AND open/high/low/close all within
eps of the limit price. -/
def label_one_word (b : LabelBar) (eps : ℚ) : Bool :=
  label_limit_up b eps
    && is_close_to_limit b.openPx b.limitUpPrice eps
    && is_close_to_limit b.highPx b.limitUpPrice eps
    && is_close_to_limit b.lowPx b.limitUpPrice eps
    && is_close_to_limit b.closePx b.limitUpPrice eps

/-- `low < limit_up_price - eps` with NaN comparing `false`. -/
def low_below_limit (b : LabelBar) (eps : ℚ) : Bool :=
  match b.lowPx, b.limitUpPrice with
  | some lo, some lim => decide (lo < lim - eps)
  | _, _ => false

/-- `label_opened` column: applicable AND high within eps of the limit
price AND low strictly below `limit_up_price - eps`. -/
def label_opened (b : LabelBar) (eps : ℚ) : Bool :=
  b.priceLimitApplicable
    && is_close_to_limit b.highPx b.limitUpPrice eps
    && low_below_limit b eps

/-- `label_sealed` column: limit-up AND NOT opened. -/
def label_sealed (b : LabelBar) (eps : ℚ) : Bool :=
  label_limit_up b eps && !(label_opened b eps)

/-- The default epsilon `1e-6` from `labels.py`. -/
def default_eps : ℚ := 1 / 1000000

/-- A one-word limit-up bar used as a concrete witness input. -/
def one_word_bar : LabelBar :=
  { openPx := some 11, highPx := some 11, lowPx := some 11,
    closePx := some 11, limitUpPrice := some 11, priceLimitApplicable := true }

/-! ## Limit price computation (`limits.py`)

`compute_limit_price` works on exact `Decimal` values; `ℚ` models exact
decimal arithmetic. `quantize(Decimal("0.01"), rounding=ROUND_HALF_UP)`
rounds to the nearest multiple of 1/100, ties away from zero. -/

/-- Decimal `quantize` to two places with `ROUND_HALF_UP` (ties away from
zero): for `0 ≤ x` this is `⌊100 x + 1/2⌋ / 100`, and negative inputs are
rounded by symmetry. -/
def quantize2_half_up (x : ℚ) : ℚ :=
  if 0 ≤ x then (⌊100 * x + 1 / 2⌋ : ℚ) / 100
  else -((⌊100 * (-x) + 1 / 2⌋ : ℚ) / 100)

/-- `compute_limit_price(pre_close, up) =
quantize(pre_close * (1 + up), "0.01", ROUND_HALF_UP)`. -/
def compute_limit_price (pre_close up : ℚ) : ℚ :=
  quantize2_half_up (pre_close * (1 + up))

/-! ## Fill models (`fill_models.py`)

Rows reaching `can_buy_limitup_day` / `entry_price` are Python mappings
from column names to arbitrary cell values; `PyVal` models the cell values
that can occur in a pandas row dict. -/

inductive FillModel
  | IDEAL
  | CONSERVATIVE
deriving DecidableEq, Repr

/-- A Python cell value: a bool, a string, an int, a float (`vNum`, exact
value as `ℚ`), or the float NaN. -/
inductive PyVal
  | vBool (b : Bool)
  | vStr (s : String)
  | vInt (n : Int)
  | vNum (q : ℚ)
  | vNan
deriving DecidableEq, Repr

/-- Python `str()` of a cell value. For floats the exact digit string is
irrelevant to the boolean coercion below — it only matters that a float
repr is never one of the recognized true/false tokens (every Python float
repr contains `.`, `e`, `inf` or `nan`, and `nan` is handled by `vNan`);
integral floats are rendered exactly (`str(1.0) = "1.0"`), other rationals
use a `/` form which is likewise never a recognized token. -/
def pyStr : PyVal → String
  | .vBool true => "True"
  | .vBool false => "False"
  | .vStr s => s
  | .vInt n => toString n
  | .vNum q => if q.den = 1 then toString q.num ++ ".0"
               else toString q.num ++ "/" ++ toString q.den
  | .vNan => "nan"

/-- Python truthiness `bool(value)` for the modelled cell values. -/
def pyTruthy : PyVal → Bool
  | .vBool b => b
  | .vStr s => !s.isEmpty
  | .vInt n => decide (n ≠ 0)
  | .vNum q => decide (q ≠ 0)
  | .vNan => true

/-- The recognized true tokens of `_as_bool`. -/
def true_strings : List String := ["1", "true", "t", "yes", "y"]

/-- The recognized false tokens of `_as_bool`. -/
def false_strings : List String := ["0", "false", "f", "no", "n", "", "nan"]

/-- Python `.strip().lower()`, computed on the character list: drop
leading and trailing whitespace, lowercase the rest. -/
def py_strip_lower (s : String) : String :=
  String.mk
    ((((s.data.dropWhile Char.isWhitespace).reverse.dropWhile
        Char.isWhitespace).reverse).map Char.toLower)

/-- `_as_bool`: a bool is returned as-is; otherwise the stripped,
lowercased string form is checked against the recognized tokens, and an
unrecognized value falls back to Python truthiness `bool(value)`. -/
def as_bool (v : PyVal) : Bool :=
  match v with
  | .vBool b => b
  | _ =>
    let text := py_strip_lower (pyStr v)
    if true_strings.contains text then true
    else if false_strings.contains text then false
    else pyTruthy v

/-- A row as seen by `fill_models.py`: a mapping from column names to cell
values. -/
def PyRow := List (String × PyVal)

/-- Key lookup in a row (`key in row` / `row[key]`). -/
def rowGet (row : PyRow) (key : String) : Option PyVal :=
  (row.find? (fun p => p.1 == key)).map (fun p => p.2)

/-- `_get_flag`: read `primary_key` if present, else the alias if present,
else `False`; coerce through `_as_bool`. -/
def get_flag (row : PyRow) (primary : String) (aliasKey : Option String) : Bool :=
  match rowGet row primary with
  | some v => as_bool v
  | none =>
    match aliasKey with
    | some a =>
      match rowGet row a with
      | some v => as_bool v
      | none => false
    | none => false

/-- `can_buy_limitup_day`: not limit-up ⇒ not buyable; IDEAL ⇒ buyable;
CONSERVATIVE ⇒ buyable iff neither sealed nor one-word.  (The
string-to-enum normalization `_normalize_model` is a no-op once the model
is the enum, and is not modelled.) -/
def can_buy_limitup_day (row : PyRow) (model : FillModel) : Bool :=
  let is_limit_up := get_flag row "label_limit_up" (some "is_limit_up")
  if !is_limit_up then false
  else
    match model with
    | .IDEAL => true
    | .CONSERVATIVE =>
      let is_sealed := get_flag row "label_sealed" (some "sealed")
      let is_one_word := get_flag row "label_one_word" (some "one_word")
      !(is_sealed || is_one_word)

/-- `pd.to_numeric(pd.Series([v]), errors="coerce").iloc[0]` on a scalar
cell value; `none` is NaN. Fractional numeric strings are not modelled
(no claim exercises them); integer strings coerce. -/
def to_num (v : PyVal) : Option ℚ :=
  match v with
  | .vBool b => some (if b then 1 else 0)
  | .vInt n => some (n : ℚ)
  | .vNum q => some q
  | .vNan => none
  | .vStr s => (s.trim.toInt?).map (fun n => (n : ℚ))

/-- `entry_price`: raises when `close` is missing or not a number, else
returns `float(close)` — the fill model does not influence the price. -/
def entry_price (row : PyRow) (model : FillModel) : Except String ℚ :=
  match rowGet row "close" with
  | none => .error "row is missing the close column"
  | some v =>
    match to_num v with
    | none => .error "close is not a valid number"
    | some q =>
      match model with
      | .IDEAL => .ok q
      | .CONSERVATIVE => .ok q

/-- A concrete buyable limit-up row used as a witness input. -/
def buyable_row : PyRow :=
  [("label_limit_up", .vBool true), ("label_sealed", .vBool false),
   ("label_one_word", .vBool false), ("close", .vNum 11)]

/-- A row whose `label_limit_up` value is not one of the recognized truthy
tokens, yet is Python-truthy. -/
def unrecognized_flag_row : PyRow := [("label_limit_up", .vStr "maybe")]

/-- A row whose `label_limit_up` flag coerces to false. -/
def non_limitup_row : PyRow := [("label_limit_up", .vBool false), ("close", .vNum 10)]

/-! ## Streak tracker (`streaks.py`)

`compute_limitup_streak` normalizes `trade_date` and coerces
`label_limit_up` to booleans first; an `SRow` is a row after that
normalization, plus `rid`, its index label in the caller's frame (pandas
keeps index labels through `sort_values`, and `sort_index` restores the
caller's order at the end). -/

structure SRow where
  rid : ℕ
  ts : ℕ
  date : ℕ
  lu : Bool
deriving DecidableEq, Repr

/-- The (ts_code, trade_date) sort order used by
`sort_values(["ts_code", "trade_date"])` — a multi-column pandas sort is
a stable lexsort. -/
def streak_key_le (a b : SRow) : Prop :=
  a.ts < b.ts ∨ (a.ts = b.ts ∧ a.date ≤ b.date)

instance : DecidableRel streak_key_le := fun a b => by
  unfold streak_key_le; infer_instance

instance : IsTotal SRow streak_key_le :=
  ⟨by intro a b; unfold streak_key_le; omega⟩

instance : IsTrans SRow streak_key_le :=
  ⟨by intro a b c; unfold streak_key_le; omega⟩

/-- Position of a date in the sorted list of all distinct trade dates of
the input (`market_trade_positions`): the index of `d` in the ascending
enumeration equals the number of distinct dates smaller than `d`. -/
def trade_date_position (rows : List SRow) (d : ℕ) : ℕ :=
  ((rows.map SRow.date).toFinset.filter (fun x => x < d)).card

/-- The per-instrument scan of `compute_limitup_streak`: walk the
(ts_code, trade_date)-sorted rows carrying
`(previous ts_code, previous_streak, previous_is_limit_up,
previous_trade_position)`; the state resets whenever the ts_code
changes, which on a ts_code-sorted list is exactly the per-group fresh
state of `groupby("ts_code", sort=False)`. -/
def streak_step (pos : ℕ → ℕ) (prevTs : Option ℕ) (prevStreak : ℕ)
    (prevLU : Bool) (prevPos : Option ℕ) (r : SRow) : ℕ :=
  let st : ℕ × Bool × Option ℕ :=
    if prevTs = some r.ts then (prevStreak, prevLU, prevPos)
    else (0, false, none)
  let curPos := pos r.date
  let isCont : Bool :=
    match st.2.2 with
    | some p => decide (p + 1 = curPos)
    | none => false
  if r.lu then (if st.2.1 && isCont then st.1 + 1 else 1) else 0

def streak_scan (pos : ℕ → ℕ) :
    Option ℕ → ℕ → Bool → Option ℕ → List SRow → List (SRow × ℕ)
  | _, _, _, _, [] => []
  | prevTs, prevStreak, prevLU, prevPos, r :: rest =>
    (r, streak_step pos prevTs prevStreak prevLU prevPos r) ::
      streak_scan pos (some r.ts) (streak_step pos prevTs prevStreak prevLU prevPos r)
        r.lu (some (pos r.date)) rest

/-- The scan output in (ts_code, trade_date)-sorted order. -/
def streaks_sorted (rows : List SRow) : List (SRow × ℕ) :=
  streak_scan (trade_date_position rows) none 0 false none
    (List.insertionSort streak_key_le rows)

/-- The `sort_index()` order restoring the caller's row order. -/
def streak_rid_le (a b : SRow × ℕ) : Prop := a.1.rid ≤ b.1.rid

instance : DecidableRel streak_rid_le := fun a b => by
  unfold streak_rid_le; infer_instance

instance : IsTotal (SRow × ℕ) streak_rid_le :=
  ⟨by intro a b; unfold streak_rid_le; omega⟩

instance : IsTrans (SRow × ℕ) streak_rid_le :=
  ⟨by intro a b c; unfold streak_rid_le; omega⟩

/-- `compute_limitup_streak`: sort by (ts_code, trade_date), compute the
`streak_up` column by the per-instrument scan, then `sort_index()` back
to the caller's order. -/
def compute_limitup_streak (rows : List SRow) : List (SRow × ℕ) :=
  List.insertionSort streak_rid_le (streaks_sorted rows)

/-- Default row used with `List.getD`. -/
def dfltS : SRow × ℕ := (⟨0, 0, 0, false⟩, 0)

/-- Strict (ts_code, trade_date) order, used to show the sorted order is
unique when the keys are pairwise distinct. -/
def streak_key_lt (a b : SRow) : Prop :=
  a.ts < b.ts ∨ (a.ts = b.ts ∧ a.date < b.date)

/-- Gap scenario: instrument 1 is limit-up on days 20240101 and
20240103, instrument 2 trades on 20240102, so the global calendar
contains the intermediate day that instrument 1 misses. -/
def gap_rows : List SRow :=
  [⟨0, 1, 20240101, true⟩, ⟨1, 2, 20240102, false⟩, ⟨2, 1, 20240103, true⟩]

/-- Duplicate-key rows: instrument 1 has two rows dated 20240102. -/
def dup_rows_a : List SRow :=
  [⟨0, 1, 20240101, true⟩, ⟨1, 1, 20240102, true⟩, ⟨2, 1, 20240102, true⟩]

/-- The same rows with the two duplicate-dated rows swapped. -/
def dup_rows_b : List SRow :=
  [⟨0, 1, 20240101, true⟩, ⟨2, 1, 20240102, true⟩, ⟨1, 1, 20240102, true⟩]

/-- Distinct-key rows in shuffled order, for the order-independence
witness. -/
def shuffle_rows_a : List SRow :=
  [⟨0, 1, 20240101, true⟩, ⟨1, 1, 20240102, true⟩, ⟨2, 2, 20240101, false⟩]

/-- A permutation of `shuffle_rows_a`. -/
def shuffle_rows_b : List SRow :=
  [⟨2, 2, 20240101, false⟩, ⟨1, 1, 20240102, true⟩, ⟨0, 1, 20240101, true⟩]

/-! ## Forward-return engine (`returns.py`)

`add_next_day_returns` tags every row with `_original_index` (the row's
position), sorts stably by `(ts_code, parsed trade_date,
_original_index)` — keys made distinct by the index, so the result does
not depend on sort stability — shifts `open`/`close` by -1 within each
`ts_code` group, computes the forward returns, and restores the original
order by sorting on `_original_index`. -/

structure RBar where
  ts : ℕ
  date : ℕ
  openPx : Option ℚ
  closePx : Option ℚ
deriving DecidableEq, Repr

/-- The `(ts_code, _trade_sort_key, _original_index)` sort order; a row
is the pair (original index, bar). -/
def ret_key_le (a b : ℕ × RBar) : Prop :=
  a.2.ts < b.2.ts ∨ (a.2.ts = b.2.ts ∧
    (a.2.date < b.2.date ∨ (a.2.date = b.2.date ∧ a.1 ≤ b.1)))

instance : DecidableRel ret_key_le := fun a b => by
  unfold ret_key_le; infer_instance

instance : IsTotal (ℕ × RBar) ret_key_le :=
  ⟨by intro a b; unfold ret_key_le; omega⟩

instance : IsTrans (ℕ × RBar) ret_key_le :=
  ⟨by intro a b c; unfold ret_key_le; omega⟩

/-- `groupby("ts_code")[col].shift(-1)` on the ts_code-sorted list: each
row is paired with the next row's bar when that row belongs to the same
instrument, else with `none`. -/
def next_in_group : List (ℕ × RBar) → List ((ℕ × RBar) × Option RBar)
  | [] => []
  | [a] => [(a, none)]
  | a :: b :: rest =>
    (a, if a.2.ts = b.2.ts then some b.2 else none) :: next_in_group (b :: rest)

/-- `_compute_forward_return`: `next/current - 1` where both prices are
present and the current close is nonzero, else NaN. -/
def forward_ret (nextPx curClose : Option ℚ) : Option ℚ :=
  match nextPx, curClose with
  | some n, some c => if c = 0 then none else some (n / c - 1)
  | _, _ => none

/-- Rows in sorted order with their `(next_open_ret, next_close_ret)`. -/
def returns_sorted (l : List RBar) : List ((ℕ × RBar) × Option ℚ × Option ℚ) :=
  (next_in_group (List.insertionSort ret_key_le l.enum)).map
    (fun p => (p.1, forward_ret (p.2.bind RBar.openPx) p.1.2.closePx,
      forward_ret (p.2.bind RBar.closePx) p.1.2.closePx))

/-- The `sort_values("_original_index")` order restoring the caller's
row order. -/
def ret_rid_le (a b : (ℕ × RBar) × Option ℚ × Option ℚ) : Prop :=
  a.1.1 ≤ b.1.1

instance : DecidableRel ret_rid_le := fun a b => by
  unfold ret_rid_le; infer_instance

instance : IsTotal ((ℕ × RBar) × Option ℚ × Option ℚ) ret_rid_le :=
  ⟨by intro a b; unfold ret_rid_le; omega⟩

instance : IsTrans ((ℕ × RBar) × Option ℚ × Option ℚ) ret_rid_le :=
  ⟨by intro a b c; unfold ret_rid_le; omega⟩

/-- `add_next_day_returns`: compute in sorted order, then restore the
caller's original row order. -/
def add_next_day_returns (l : List RBar) :
    List ((ℕ × RBar) × Option ℚ × Option ℚ) :=
  List.insertionSort ret_rid_le (returns_sorted l)

/-- Default bar / row values used with `List.getD`. -/
def dfltB : RBar := ⟨0, 0, none, none⟩

def dfltE : ℕ × RBar := (0, dfltB)

def dfltN : (ℕ × RBar) × Option RBar := (dfltE, none)

def dfltR : (ℕ × RBar) × Option ℚ × Option ℚ := (dfltE, none, none)

/-- Strict order on the original row index. -/
def rid_lt (a b : ℕ × RBar) : Prop := a.1 < b.1

/-- Concrete unsorted input for the forward-return witness: instrument 1
has days 20240102 and 20240101 given out of order, instrument 2 has a
single day. -/
def ret_rows : List RBar :=
  [⟨1, 20240102, some 23, some 24⟩, ⟨1, 20240101, some 10, some 20⟩,
   ⟨2, 20240101, some 5, some 6⟩]

/-! ## Backtest simulator (`backtest.py`)

`run_backtest` normalizes trade dates, generates entry/exit signals via
the strategy, builds a per-(ts_code, date) price lookup, produces one
trade per resolvable entry signal with the cost formulas applied, sorts
trades by (entry_date, ts_code), and builds an equity curve over the
distinct calendar dates. Bars are modelled after normalization with
`open`/`close` as `Option ℚ` (NaN is `none`). -/

structure BBar where
  ts : ℕ
  date : ℕ
  openPx : Option ℚ
  closePx : Option ℚ
deriving DecidableEq, Repr

inductive ExitPriceType
  | next_open
  | next_close
deriving DecidableEq, Repr

structure BTrade where
  ts : ℕ
  entry_date : ℕ
  entry_px : ℚ
  exit_date : ℕ
  exit_px : Option ℚ
  ret_net : Option ℚ
deriving DecidableEq, Repr

/-- `_build_price_lookup`: after the stable (ts_code, date, row-order)
sort, `drop_duplicates(keep="last")` retains for each (ts_code,
normalized date) key the row with the greatest original position; this
left fold computes exactly that row. -/
def price_lookup (bars : List BBar) (key : ℕ × ℕ) : Option BBar :=
  bars.foldl
    (fun acc b => if b.ts = key.1 ∧ b.date = key.2 then some b else acc) none

/-- A bar row together with its entry signal and normalized exit date;
`exitDate = none` models a missing or unparseable exit value (the
`_normalize_trade_date` `None` cases). -/
structure SigRow where
  bar : BBar
  entry : Bool
  exitDate : Option ℕ
deriving DecidableEq, Repr

/-- The per-signal loop of `run_backtest`: an entry row whose exit date
is `none` or has no price-lookup hit is skipped with `continue` before
any price is computed; otherwise `entry_price` raises on a NaN close,
and the cost formulas
`entry * (1 + cost/10000)`, `exit * (1 - cost/10000)`,
`net = exit/entry - 1` are applied to the base prices. -/
def trades_loop (lookup : ℕ × ℕ → Option BBar) (ept : ExitPriceType)
    (cost_bps : ℚ) : List SigRow → Except String (List BTrade)
  | [] => .ok []
  | row :: rest =>
    if row.entry = true then
      match row.exitDate with
      | none => trades_loop lookup ept cost_bps rest
      | some d =>
        match lookup (row.bar.ts, d) with
        | none => trades_loop lookup ept cost_bps rest
        | some exit_bar =>
          match row.bar.closePx with
          | none => .error "entry close is not a valid number"
          | some c =>
            (trades_loop lookup ept cost_bps rest).map
              (fun ts' =>
                ⟨row.bar.ts, row.bar.date, c * (1 + cost_bps / 10000), d,
                  (match ept with
                    | .next_open => exit_bar.openPx
                    | .next_close => exit_bar.closePx).map
                    (fun e => e * (1 - cost_bps / 10000)),
                  ((match ept with
                    | .next_open => exit_bar.openPx
                    | .next_close => exit_bar.closePx).map
                    (fun e => e * (1 - cost_bps / 10000))).map
                    (fun e => e / (c * (1 + cost_bps / 10000)) - 1)⟩ :: ts')
    else trades_loop lookup ept cost_bps rest

/-- The `sort_values(["entry_date", "ts_code"])` order on trades. -/
def trade_sort_le (a b : BTrade) : Prop :=
  a.entry_date < b.entry_date ∨ (a.entry_date = b.entry_date ∧ a.ts ≤ b.ts)

instance : DecidableRel trade_sort_le := fun a b => by
  unfold trade_sort_le; infer_instance

instance : IsTotal BTrade trade_sort_le :=
  ⟨by intro a b; unfold trade_sort_le; omega⟩

instance : IsTrans BTrade trade_sort_le :=
  ⟨by intro a b c; unfold trade_sort_le; omega⟩

/-- `run_backtest` after signal generation: the signal loop over the
rows, then the deterministic trade sort. The total cost is
`fee_bps + slippage_bps`. -/
def run_backtest (rows : List SigRow) (ept : ExitPriceType)
    (fee_bps slippage_bps : ℚ) : Except String (List BTrade) :=
  (trades_loop (price_lookup (rows.map SigRow.bar)) ept
      (fee_bps + slippage_bps) rows).map
    (List.insertionSort trade_sort_le)

/-- `_build_equity_curve`'s calendar: the sorted distinct trade dates of
the input bars. -/
def equity_dates (bars : List BBar) : List ℕ :=
  (bars.map BBar.date).toFinset.sort (· ≤ ·)

/-- One trade's compounding step `equity *= 1.0 + float(ret)`: a NaN
return poisons the equity from that point on (float NaN arithmetic). -/
def equity_mul (acc : Option ℚ) (r : Option ℚ) : Option ℚ :=
  match acc, r with
  | some e, some x => some (e * (1 + x))
  | _, _ => none

/-- The equity value after the last calendar date (the final row of
`_build_equity_curve`'s output; the curve starts at 1.0 and each date
compounds every trade whose `exit_date` equals that date). -/
def final_equity (dates : List ℕ) (trades : List BTrade) : Option ℚ :=
  dates.foldl
    (fun acc d =>
      (trades.filter (fun t => t.exit_date == d)).foldl
        (fun a t => equity_mul a t.ret_net) acc)
    (some 1)

/-- The effect of a total cost of `c` basis points on a zero-cost trade
record: prices are rescaled and the net return recomputed from the
rescaled prices. -/
def apply_cost (c : ℚ) (t : BTrade) : BTrade :=
  { t with
    entry_px := t.entry_px * (1 + c / 10000),
    exit_px := t.exit_px.map (fun e => e * (1 - c / 10000)),
    ret_net := (t.exit_px.map (fun e => e * (1 - c / 10000))).map
      (fun e => e / (t.entry_px * (1 + c / 10000)) - 1) }

/-- Default trade used with `List.getD`. -/
def dfltT : BTrade := ⟨0, 0, 0, 0, none, none⟩

/-- The value carried by a defined net return (`none.getD 0` is junk and
only used where the return is known to be defined). -/
def trade_ret_val (t : BTrade) : ℚ := t.ret_net.getD 0

/-! ## Strategy-state handling (`_generate_signals`)

The strategy object is modelled by the state of its `fill_model`
attribute (`has_fill_model` is `hasattr(strategy, "fill_model")`); the
concrete strategies read `self.fill_model` inside
`generate_entries`/`generate_exits` and mutate nothing, so the
generators are a pure function `gen` of that state producing the
signal-annotated rows (or an exception, modelled with `Except`). -/

structure StratState where
  has_fill_model : Bool
  fill_model_val : Option FillModel
deriving DecidableEq, Repr

/-- `_generate_signals`: save `getattr(strategy, "fill_model", None)`,
substitute the call's fill model when the attribute exists, run the
generators, and restore the saved original in a `finally` (so also when
the generators raise). -/
def generate_signals (gen : StratState → Except String (List SigRow))
    (st : StratState) (fm : FillModel) :
    Except String (List SigRow) × StratState :=
  let original := st.fill_model_val
  let working :=
    if st.has_fill_model then { st with fill_model_val := some fm } else st
  let result := gen working
  let restored :=
    if st.has_fill_model then { working with fill_model_val := original }
    else working
  (result, restored)

/-- `run_backtest` including signal generation: returns the result and
the strategy state after the call. -/
def run_backtest_with_strategy (gen : StratState → Except String (List SigRow))
    (st : StratState) (ept : ExitPriceType) (fm : FillModel)
    (fee_bps slippage_bps : ℚ) :
    Except String (List BTrade) × StratState :=
  match generate_signals gen st fm with
  | (.error e, st') => (.error e, st')
  | (.ok rows, st') => (run_backtest rows ept fee_bps slippage_bps, st')

/-- Concrete two-bar scenario rows (spec §8): instrument 1 buys at the
close 11 of day 1 and exits at the close 11.5 of day 2. -/
def cost_rows : List SigRow :=
  [⟨⟨1, 1, some (54 / 5), some 11⟩, true, some 2⟩,
   ⟨⟨1, 2, some (56 / 5), some (23 / 2)⟩, false, none⟩]

/-- The zero-cost run's single trade on `cost_rows`. -/
def cost_t0 : List BTrade :=
  [⟨1, 1, 11 * (1 + (0 + 0) / 10000), 2,
    some (23 / 2 * (1 - (0 + 0) / 10000)),
    some ((23 / 2 * (1 - (0 + 0) / 10000)) / (11 * (1 + (0 + 0) / 10000)) -
      1)⟩]

/-- The 10bps+10bps run's single trade on `cost_rows`. -/
def cost_tc : List BTrade :=
  [⟨1, 1, 11 * (1 + (10 + 10) / 10000), 2,
    some (23 / 2 * (1 - (10 + 10) / 10000)),
    some ((23 / 2 * (1 - (10 + 10) / 10000)) / (11 * (1 + (10 + 10) / 10000))
      - 1)⟩]

/-- A resolvable signal row on the same bars, for the skip witness. -/
def skip_row_good : SigRow := ⟨⟨1, 1, some (54 / 5), some 11⟩, true, some 2⟩

/-- An entry row whose exit date has no matching price row. -/
def skip_row_bad : SigRow := ⟨⟨1, 2, some (56 / 5), some (23 / 2)⟩, true, some 99⟩

/-! ## Theorems: labels, limit price, fill models -/

/-- C2: for every bar, `label_one_word` implies `label_limit_up`;
`label_limit_up` excludes `label_opened ∧ label_sealed`; and on a
limit-up bar exactly one of `label_sealed`, `label_opened` holds. -/
theorem label_invariants (b : LabelBar) (eps : ℚ) :
    (label_one_word b eps = true → label_limit_up b eps = true) ∧
    (label_limit_up b eps = true →
      ¬(label_opened b eps = true ∧ label_sealed b eps = true)) ∧
    (label_limit_up b eps = true →
      ((label_sealed b eps).xor (label_opened b eps)) = true) := by
  refine ⟨fun h => ?_, fun h hc => ?_, fun h => ?_⟩
  · unfold label_one_word at h
    cases hlu : label_limit_up b eps <;> simp [hlu] at h ⊢
  · unfold label_sealed at hc
    rcases hc with ⟨hop, hse⟩
    rw [hop] at hse
    simp at hse
  · unfold label_sealed
    cases hop : label_opened b eps <;> simp [h, hop]

/-- Witness for `label_invariants` at the concrete one-word bar. -/
theorem label_invariants_witness :
    label_one_word one_word_bar default_eps = true ∧
    label_limit_up one_word_bar default_eps = true ∧
    ((label_sealed one_word_bar default_eps).xor
      (label_opened one_word_bar default_eps)) = true := by
  have h1 : label_one_word one_word_bar default_eps = true := by
    norm_num [label_one_word, label_limit_up, is_close_to_limit, one_word_bar,
      default_eps]
  have h := label_invariants one_word_bar default_eps
  exact ⟨h1, h.1 h1, h.2.2 (h.1 h1)⟩

/-- Half-up rounding to two decimals: the result is an integer multiple
of 1/100, within 1/200 of the input, and an exact tie is rounded away
from zero. -/
theorem quantize2_half_up_spec (x : ℚ) :
    (∃ n : ℤ, quantize2_half_up x = n / 100) ∧
    |quantize2_half_up x - x| ≤ 1 / 200 ∧
    (|quantize2_half_up x - x| = 1 / 200 → |x| ≤ |quantize2_half_up x|) := by
  unfold quantize2_half_up
  by_cases hx : 0 ≤ x
  · rw [if_pos hx]
    have h1 : ((⌊100 * x + 1 / 2⌋ : ℚ)) ≤ 100 * x + 1 / 2 := Int.floor_le _
    have h2 : 100 * x + 1 / 2 < (⌊100 * x + 1 / 2⌋ : ℚ) + 1 :=
      Int.lt_floor_add_one _
    refine ⟨⟨⌊100 * x + 1 / 2⌋, rfl⟩, ?_, ?_⟩
    · rw [abs_le]
      constructor <;> [linarith; linarith]
    · intro htie
      have hcases := abs_eq (by norm_num : (0:ℚ) ≤ 1 / 200) |>.mp htie
      rcases hcases with hup | hdown
      · have hr : (⌊100 * x + 1 / 2⌋ : ℚ) / 100 = x + 1 / 200 := by linarith
        rw [hr, abs_of_nonneg hx, abs_of_nonneg (by linarith)]
        linarith
      · exfalso; linarith
  · rw [if_neg hx]
    push_neg at hx
    have h1 : ((⌊100 * (-x) + 1 / 2⌋ : ℚ)) ≤ 100 * (-x) + 1 / 2 := Int.floor_le _
    have h2 : 100 * (-x) + 1 / 2 < (⌊100 * (-x) + 1 / 2⌋ : ℚ) + 1 :=
      Int.lt_floor_add_one _
    refine ⟨⟨-⌊100 * (-x) + 1 / 2⌋, by push_cast; ring⟩, ?_, ?_⟩
    · rw [abs_le]
      constructor <;> [linarith; linarith]
    · intro htie
      have hcases := abs_eq (by norm_num : (0:ℚ) ≤ 1 / 200) |>.mp htie
      rcases hcases with hup | hdown
      · exfalso; linarith
      · have hr : -((⌊100 * (-x) + 1 / 2⌋ : ℚ) / 100) = x - 1 / 200 := by linarith
        rw [hr, abs_of_neg hx, abs_of_neg (by linarith)]
        linarith

/-- C7: the limit price is `previous_close * (1 + limit_up_fraction)`
rounded to two decimal places half-up in exact decimal arithmetic (it is
a multiple of 1/100, within half a cent of the product, ties rounded
away from zero), and `previous_close = 10, fraction = 0.10` yields
exactly 11.00. -/
theorem compute_limit_price_half_up (pre_close up : ℚ) :
    (∃ n : ℤ, compute_limit_price pre_close up = n / 100) ∧
    |compute_limit_price pre_close up - pre_close * (1 + up)| ≤ 1 / 200 ∧
    (|compute_limit_price pre_close up - pre_close * (1 + up)| = 1 / 200 →
      |pre_close * (1 + up)| ≤ |compute_limit_price pre_close up|) ∧
    compute_limit_price 10 (1 / 10) = 11 := by
  have h := quantize2_half_up_spec (pre_close * (1 + up))
  refine ⟨h.1, h.2.1, h.2.2, ?_⟩
  have h11 : (10 : ℚ) * (1 + 1 / 10) = 11 := by norm_num
  unfold compute_limit_price quantize2_half_up
  rw [h11, if_pos (by norm_num : (0:ℚ) ≤ 11)]
  norm_num

/-- Witness for `compute_limit_price_half_up` at `(10, 1/10)`. -/
theorem compute_limit_price_half_up_witness :
    compute_limit_price 10 (1 / 10) = 11 ∧
    |compute_limit_price 10 (1 / 10) - 10 * (1 + 1 / 10)| ≤ 1 / 200 :=
  ⟨(compute_limit_price_half_up 10 (1 / 10)).2.2.2,
   (compute_limit_price_half_up 10 (1 / 10)).2.1⟩

/-- C3: on a limit-up row, IDEAL always buys; CONSERVATIVE buys iff the
row is neither sealed nor one-word; and the entry price is the row's
close under every fill model (pricing identical across models). -/
theorem limitup_day_fill_models (row : PyRow)
    (hlu : get_flag row "label_limit_up" (some "is_limit_up") = true) :
    can_buy_limitup_day row FillModel.IDEAL = true ∧
    (can_buy_limitup_day row FillModel.CONSERVATIVE = true ↔
      (get_flag row "label_sealed" (some "sealed") = false ∧
       get_flag row "label_one_word" (some "one_word") = false)) ∧
    (∀ m₁ m₂ : FillModel, entry_price row m₁ = entry_price row m₂) ∧
    (∀ (m : FillModel) (q : ℚ),
      (rowGet row "close").bind to_num = some q →
        entry_price row m = Except.ok q) := by
  refine ⟨?_, ?_, ?_, ?_⟩
  · unfold can_buy_limitup_day
    simp [hlu]
  · unfold can_buy_limitup_day
    simp only [hlu, Bool.not_true, Bool.false_eq_true, if_false]
    cases hs : get_flag row "label_sealed" (some "sealed") <;>
      cases hw : get_flag row "label_one_word" (some "one_word") <;> simp
  · intro m₁ m₂
    cases m₁ <;> cases m₂ <;> rfl
  · intro m q hq
    unfold entry_price
    cases hc : rowGet row "close" with
    | none => rw [hc] at hq; simp at hq
    | some v =>
      rw [hc] at hq
      have hq' : to_num v = some q := by simpa using hq
      cases m <;> simp [hq']

/-- Witness for `limitup_day_fill_models` at a concrete buyable row. -/
theorem limitup_day_fill_models_witness :
    can_buy_limitup_day buyable_row FillModel.IDEAL = true ∧
    can_buy_limitup_day buyable_row FillModel.CONSERVATIVE = true ∧
    entry_price buyable_row FillModel.IDEAL = Except.ok 11 := by
  have h := limitup_day_fill_models buyable_row (by decide)
  exact ⟨h.1, h.2.1.mpr (by decide), h.2.2.2 FillModel.IDEAL 11 (by decide)⟩

/-- C10 counterexample: `"maybe"` is not a recognized truthy value, yet
`can_buy_limitup_day` treats the row as limit-up (Python truthiness
fallback) and reports it as buyable under IDEAL — the claim as stated
(can_buy is false for any unrecognized value) fails on this input. -/
theorem can_buy_unrecognized_truthy_counterexample :
    true_strings.contains (py_strip_lower "maybe") = false ∧
    false_strings.contains (py_strip_lower "maybe") = false ∧
    can_buy_limitup_day unrecognized_flag_row FillModel.IDEAL = true := by
  refine ⟨by decide, by decide, by decide⟩

/-- C10 (amended): whenever the `label_limit_up` flag (or its
`is_limit_up` alias) coerces to false — boolean false, a recognized
falsy token, absent, or a Python-falsy unrecognized value —
`can_buy_limitup_day` returns false under every fill model. -/
theorem can_buy_requires_limitup_flag (row : PyRow) (m : FillModel)
    (h : get_flag row "label_limit_up" (some "is_limit_up") = false) :
    can_buy_limitup_day row m = false := by
  unfold can_buy_limitup_day
  simp [h]

/-- Witness for `can_buy_requires_limitup_flag` at a concrete row. -/
theorem can_buy_requires_limitup_flag_witness :
    can_buy_limitup_day non_limitup_row FillModel.IDEAL = false :=
  can_buy_requires_limitup_flag non_limitup_row FillModel.IDEAL (by decide)

/-! ## Theorems: streak tracker -/

theorem streak_step_not_limitup (pos : ℕ → ℕ) (pT : Option ℕ) (pS : ℕ)
    (pLU : Bool) (pP : Option ℕ) (r : SRow) (h : r.lu = false) :
    streak_step pos pT pS pLU pP r = 0 := by
  unfold streak_step
  simp [h]

theorem streak_step_reset (pos : ℕ → ℕ) (pT : Option ℕ) (pS : ℕ)
    (pLU : Bool) (pP : Option ℕ) (r : SRow) (h : pT ≠ some r.ts) :
    streak_step pos pT pS pLU pP r = if r.lu then 1 else 0 := by
  unfold streak_step
  simp [h]

theorem streak_step_known (pos : ℕ → ℕ) (ts₀ s₀ : ℕ) (lu₀ : Bool)
    (p₀ : ℕ) (r : SRow) :
    streak_step pos (some ts₀) s₀ lu₀ (some p₀) r =
      if r.lu = true then
        (if ts₀ = r.ts ∧ lu₀ = true ∧ p₀ + 1 = pos r.date then s₀ + 1 else 1)
      else 0 := by
  cases hr : r.lu <;> by_cases hts : ts₀ = r.ts <;>
    by_cases hlu : lu₀ = true <;> by_cases hp : p₀ + 1 = pos r.date <;>
      simp [streak_step, hr, hts, hlu, hp]

theorem streak_scan_map_fst (pos : ℕ → ℕ) (l : List SRow) :
    ∀ (pT : Option ℕ) (pS : ℕ) (pLU : Bool) (pP : Option ℕ),
      (streak_scan pos pT pS pLU pP l).map Prod.fst = l := by
  induction l with
  | nil => intro _ _ _ _; rfl
  | cons r rest ih =>
    intro pT pS pLU pP
    simp [streak_scan, ih]

theorem streak_scan_length (pos : ℕ → ℕ) (l : List SRow)
    (pT : Option ℕ) (pS : ℕ) (pLU : Bool) (pP : Option ℕ) :
    (streak_scan pos pT pS pLU pP l).length = l.length := by
  have h := congrArg List.length (streak_scan_map_fst pos l pT pS pLU pP)
  simpa using h

theorem streak_scan_zero (pos : ℕ → ℕ) (l : List SRow) :
    ∀ (pT : Option ℕ) (pS : ℕ) (pLU : Bool) (pP : Option ℕ) (i : ℕ),
      i < l.length →
      ((streak_scan pos pT pS pLU pP l).getD i dfltS).1.lu = false →
      ((streak_scan pos pT pS pLU pP l).getD i dfltS).2 = 0 := by
  induction l with
  | nil => intro _ _ _ _ i hi; simp at hi
  | cons r rest ih =>
    intro pT pS pLU pP i hi hlu
    cases i with
    | zero =>
      simp only [streak_scan, List.getD_cons_zero] at hlu ⊢
      exact streak_step_not_limitup pos pT pS pLU pP r hlu
    | succ j =>
      simp only [streak_scan, List.getD_cons_succ] at hlu ⊢
      exact ih _ _ _ _ j (by simpa using Nat.lt_of_succ_lt_succ hi) hlu

theorem streak_scan_adjacent (pos : ℕ → ℕ) (l : List SRow) :
    ∀ (pT : Option ℕ) (pS : ℕ) (pLU : Bool) (pP : Option ℕ) (i : ℕ),
      i + 1 < l.length →
      ((streak_scan pos pT pS pLU pP l).getD (i + 1) dfltS).1.lu = true →
      ((streak_scan pos pT pS pLU pP l).getD (i + 1) dfltS).2 =
        if ((streak_scan pos pT pS pLU pP l).getD i dfltS).1.ts =
             ((streak_scan pos pT pS pLU pP l).getD (i + 1) dfltS).1.ts ∧
           ((streak_scan pos pT pS pLU pP l).getD i dfltS).1.lu = true ∧
           pos (((streak_scan pos pT pS pLU pP l).getD i dfltS).1.date) + 1 =
             pos (((streak_scan pos pT pS pLU pP l).getD (i + 1) dfltS).1.date)
        then ((streak_scan pos pT pS pLU pP l).getD i dfltS).2 + 1
        else 1 := by
  induction l with
  | nil => intro _ _ _ _ i hi; simp at hi
  | cons r rest ih =>
    intro pT pS pLU pP i hi
    cases i with
    | zero =>
      cases rest with
      | nil => simp at hi
      | cons r' rest' =>
        intro hlu
        simp only [streak_scan, List.getD_cons_succ, List.getD_cons_zero]
          at hlu ⊢
        rw [streak_step_known]
        simp [hlu]
    | succ j =>
      intro hlu
      simp only [streak_scan, List.getD_cons_succ] at hlu ⊢
      exact ih _ _ _ _ j (by simpa using Nat.lt_of_succ_lt_succ hi) hlu

theorem streak_scan_head (pos : ℕ → ℕ) (r : SRow) (rest : List SRow) :
    (streak_scan pos none 0 false none (r :: rest)).getD 0 dfltS =
      (r, if r.lu = true then 1 else 0) := by
  simp only [streak_scan, List.getD_cons_zero]
  rw [streak_step_reset pos none 0 false none r (by simp)]

/-- C1: `streak_up` is 0 on every non-limit-up row; on a limit-up row it
is the previous same-instrument row's streak plus one exactly when that
previous row was also limit-up and its date sits one position earlier in
the global calendar of distinct trade dates, else 1 — in particular a
calendar gap for the instrument (even one day missing only for it)
resets the streak to 1.  Stated over the (ts_code, trade_date)-sorted
scan, of which the returned table is a permutation (rows are restored to
the caller's order at the end). -/
theorem streak_recurrence (rows : List SRow) (i : ℕ)
    (hi : i < (streaks_sorted rows).length) :
    (compute_limitup_streak rows).Perm (streaks_sorted rows) ∧
    (streaks_sorted rows).map Prod.fst =
      List.insertionSort streak_key_le rows ∧
    (((streaks_sorted rows).getD i dfltS).1.lu = false →
      ((streaks_sorted rows).getD i dfltS).2 = 0) ∧
    (((streaks_sorted rows).getD i dfltS).1.lu = true →
      ((streaks_sorted rows).getD i dfltS).2 =
        if 0 < i ∧
           ((streaks_sorted rows).getD (i - 1) dfltS).1.ts =
             ((streaks_sorted rows).getD i dfltS).1.ts ∧
           ((streaks_sorted rows).getD (i - 1) dfltS).1.lu = true ∧
           trade_date_position rows
               (((streaks_sorted rows).getD (i - 1) dfltS).1.date) + 1 =
             trade_date_position rows
               (((streaks_sorted rows).getD i dfltS).1.date)
        then ((streaks_sorted rows).getD (i - 1) dfltS).2 + 1
        else 1) := by
  have hlen : (streaks_sorted rows).length =
      (List.insertionSort streak_key_le rows).length :=
    streak_scan_length _ _ _ _ _ _
  refine ⟨List.perm_insertionSort streak_rid_le _, streak_scan_map_fst _ _ _ _ _ _, ?_, ?_⟩
  · intro hlu
    exact streak_scan_zero _ _ _ _ _ _ i (hlen ▸ hi) hlu
  · intro hlu
    cases i with
    | zero =>
      rw [if_neg (by simp)]
      cases hs : List.insertionSort streak_key_le rows with
      | nil =>
        exfalso
        rw [hlen, hs] at hi
        simp at hi
      | cons r rest =>
        unfold streaks_sorted at hlu ⊢
        rw [hs] at hlu ⊢
        rw [streak_scan_head] at hlu ⊢
        simp at hlu
        simp [hlu]
    | succ j =>
      unfold streaks_sorted at hlu ⊢
      have h := streak_scan_adjacent (trade_date_position rows)
        (List.insertionSort streak_key_le rows) none 0 false none j
        (by
          rw [← streak_scan_length (trade_date_position rows)
            (List.insertionSort streak_key_le rows) none 0 false none]
          exact hi) hlu
      rw [h]
      simp only [Nat.add_sub_cancel, Nat.zero_lt_succ, true_and]

/-- Witness for `streak_recurrence`: the gap scenario — instrument 1 is
limit-up on 20240101 and 20240103 while 20240102 exists only for
instrument 2; the streak on 20240103 is 1, not 2. -/
theorem streak_recurrence_witness :
    ((streaks_sorted gap_rows).getD 1 dfltS).1.lu = true ∧
    ((streaks_sorted gap_rows).getD 1 dfltS).2 = 1 := by
  have h := (streak_recurrence gap_rows 1 (by decide)).2.2.2 (by decide)
  rw [h, if_neg (by decide)]
  exact ⟨by decide, rfl⟩

theorem perm_toFinset_eq {α : Type} [DecidableEq α] {l₁ l₂ : List α}
    (h : l₁.Perm l₂) : l₁.toFinset = l₂.toFinset := by
  ext a
  simp only [List.mem_toFinset]
  exact h.mem_iff

theorem trade_date_position_perm {l₁ l₂ : List SRow} (hp : l₁.Perm l₂) :
    trade_date_position l₁ = trade_date_position l₂ := by
  funext d
  unfold trade_date_position
  rw [perm_toFinset_eq (hp.map SRow.date)]

instance : IsAntisymm SRow streak_key_lt :=
  ⟨by
    intro a b h1 h2
    exfalso
    unfold streak_key_lt at h1 h2
    omega⟩

theorem sorted_key_lt_of_nodup {l : List SRow}
    (hs : List.Sorted streak_key_le l)
    (hn : (l.map (fun r => (r.ts, r.date))).Nodup) :
    List.Sorted streak_key_lt l := by
  have hp : l.Pairwise (fun a b => (a.ts, a.date) ≠ (b.ts, b.date)) :=
    (List.pairwise_map).mp hn
  have hand := hs.and hp
  refine hand.imp ?_
  intro a b hab
  rcases hab with ⟨hle, hne⟩
  unfold streak_key_le at hle
  unfold streak_key_lt
  simp only [ne_eq, Prod.mk.injEq, not_and] at hne
  by_cases hts : a.ts = b.ts
  · right
    refine ⟨hts, ?_⟩
    have hd := hne hts
    omega
  · left
    omega

theorem insertionSort_key_eq_of_perm (l₁ l₂ : List SRow) (hp : l₁.Perm l₂)
    (hn : (l₁.map (fun r => (r.ts, r.date))).Nodup) :
    List.insertionSort streak_key_le l₁ = List.insertionSort streak_key_le l₂ := by
  have p₁ := List.perm_insertionSort streak_key_le l₁
  have p₂ := List.perm_insertionSort streak_key_le l₂
  have hperm : (List.insertionSort streak_key_le l₁).Perm
      (List.insertionSort streak_key_le l₂) := p₁.trans (hp.trans p₂.symm)
  have hn₁ : ((List.insertionSort streak_key_le l₁).map
      (fun r => (r.ts, r.date))).Nodup := (p₁.map _).nodup_iff.mpr hn
  have hn₂ : ((List.insertionSort streak_key_le l₂).map
      (fun r => (r.ts, r.date))).Nodup := (hperm.map _).nodup_iff.mp hn₁
  exact List.eq_of_perm_of_sorted hperm
    (sorted_key_lt_of_nodup (List.sorted_insertionSort streak_key_le l₁) hn₁)
    (sorted_key_lt_of_nodup (List.sorted_insertionSort streak_key_le l₂) hn₂)

/-- C6 counterexample: with two rows sharing the (ts_code, trade_date)
key, shuffling the input rows and restoring the caller's order changes
which duplicate row carries the continued streak, so the claim fails as
stated for arbitrary tables. -/
theorem streak_order_dependence_counterexample :
    dup_rows_a.Perm dup_rows_b ∧
    compute_limitup_streak dup_rows_a ≠ compute_limitup_streak dup_rows_b :=
  ⟨by decide, by decide⟩

/-- C6 (amended): for every input table whose (ts_code, trade_date) keys
are pairwise distinct, the streak tracker is order-independent: any
permutation of the rows yields, after restoring the caller's row order,
exactly the same `streak_up` on every row. -/
theorem streak_order_independent (l₁ l₂ : List SRow) (hp : l₁.Perm l₂)
    (hn : (l₁.map (fun r => (r.ts, r.date))).Nodup) :
    compute_limitup_streak l₁ = compute_limitup_streak l₂ := by
  unfold compute_limitup_streak streaks_sorted
  rw [insertionSort_key_eq_of_perm l₁ l₂ hp hn, trade_date_position_perm hp]

/-- Witness for `streak_order_independent` on a concrete shuffled pair. -/
theorem streak_order_independent_witness :
    compute_limitup_streak shuffle_rows_a = compute_limitup_streak shuffle_rows_b :=
  streak_order_independent shuffle_rows_a shuffle_rows_b (by decide) (by decide)

/-! ## Theorems: forward-return engine -/

theorem getD_map_eq {α β : Type} (f : α → β) (d : α) :
    ∀ (l : List α) (i : ℕ), (l.map f).getD i (f d) = f (l.getD i d)
  | [], _ => by simp
  | _ :: _, 0 => rfl
  | _ :: xs, i + 1 => by
    simp only [List.map_cons, List.getD_cons_succ]
    exact getD_map_eq f d xs i

theorem next_in_group_map_fst :
    ∀ xs : List (ℕ × RBar), (next_in_group xs).map Prod.fst = xs
  | [] => rfl
  | [_] => rfl
  | a :: b :: rest => by
    simp only [next_in_group, List.map_cons, List.cons.injEq]
    exact ⟨trivial, next_in_group_map_fst (b :: rest)⟩

theorem next_in_group_length (xs : List (ℕ × RBar)) :
    (next_in_group xs).length = xs.length := by
  have h := congrArg List.length (next_in_group_map_fst xs)
  simpa using h

theorem next_in_group_fst :
    ∀ (xs : List (ℕ × RBar)) (i : ℕ), i < xs.length →
      ((next_in_group xs).getD i dfltN).1 = xs.getD i dfltE
  | [], i, hi => by simp at hi
  | [_], 0, _ => rfl
  | [_], i + 1, hi => by simp at hi
  | _ :: _ :: _, 0, _ => rfl
  | _ :: b :: rest, i + 1, hi => by
    simp only [next_in_group, List.getD_cons_succ]
    exact next_in_group_fst (b :: rest) i (by simpa using Nat.lt_of_succ_lt_succ hi)

theorem next_in_group_snd_some :
    ∀ (xs : List (ℕ × RBar)) (i : ℕ), i + 1 < xs.length →
      (xs.getD (i + 1) dfltE).2.ts = (xs.getD i dfltE).2.ts →
      ((next_in_group xs).getD i dfltN).2 = some (xs.getD (i + 1) dfltE).2
  | [], i, hi, _ => by simp at hi
  | [_], 0, hi, _ => by simp at hi
  | [_], i + 1, hi, _ => by simp at hi
  | a :: b :: rest, 0, _, hts => by
    simp only [List.getD_cons_succ, List.getD_cons_zero] at hts ⊢
    simp only [next_in_group, List.getD_cons_zero]
    rw [if_pos hts.symm]
  | _ :: b :: rest, i + 1, hi, hts => by
    simp only [List.getD_cons_succ] at hts
    simp only [next_in_group, List.getD_cons_succ]
    exact next_in_group_snd_some (b :: rest) i
      (by simpa using Nat.lt_of_succ_lt_succ hi) hts

theorem next_in_group_snd_none :
    ∀ (xs : List (ℕ × RBar)) (i : ℕ), i < xs.length →
      (i + 1 = xs.length ∨
        (xs.getD (i + 1) dfltE).2.ts ≠ (xs.getD i dfltE).2.ts) →
      ((next_in_group xs).getD i dfltN).2 = none
  | [], i, hi, _ => by simp at hi
  | [_], 0, _, _ => rfl
  | [_], i + 1, hi, _ => by simp at hi
  | a :: b :: rest, 0, _, h => by
    rcases h with hlen | hts
    · exfalso
      simp at hlen
    · simp only [List.getD_cons_succ, List.getD_cons_zero] at hts
      simp only [next_in_group, List.getD_cons_zero]
      rw [if_neg (fun he => hts he.symm)]
  | _ :: b :: rest, i + 1, hi, h => by
    simp only [next_in_group, List.getD_cons_succ]
    refine next_in_group_snd_none (b :: rest) i
      (by simpa using Nat.lt_of_succ_lt_succ hi) ?_
    rcases h with hlen | hts
    · left
      simpa using hlen
    · right
      simpa using hts

theorem returns_sorted_map_fst (l : List RBar) :
    (returns_sorted l).map Prod.fst = List.insertionSort ret_key_le l.enum := by
  unfold returns_sorted
  rw [List.map_map]
  exact next_in_group_map_fst _

theorem returns_sorted_length (l : List RBar) :
    (returns_sorted l).length = l.length := by
  have h := congrArg List.length (returns_sorted_map_fst l)
  simpa [List.length_insertionSort] using h

theorem returns_sorted_getD (l : List RBar) (i : ℕ) :
    (returns_sorted l).getD i dfltR =
      (((next_in_group (List.insertionSort ret_key_le l.enum)).getD i dfltN).1,
        forward_ret
          (((next_in_group (List.insertionSort ret_key_le l.enum)).getD i dfltN).2.bind
            RBar.openPx)
          ((next_in_group (List.insertionSort ret_key_le l.enum)).getD i
            dfltN).1.2.closePx,
        forward_ret
          (((next_in_group (List.insertionSort ret_key_le l.enum)).getD i dfltN).2.bind
            RBar.closePx)
          ((next_in_group (List.insertionSort ret_key_le l.enum)).getD i
            dfltN).1.2.closePx) := by
  unfold returns_sorted
  exact getD_map_eq _ dfltN _ i

theorem forward_ret_none_close (o : Option ℚ) : forward_ret o none = none := by
  cases o <;> rfl

theorem forward_ret_zero_close (o : Option ℚ) : forward_ret o (some 0) = none := by
  cases o <;> simp [forward_ret]

instance : IsAntisymm (ℕ × RBar) rid_lt :=
  ⟨by
    intro a b h1 h2
    exfalso
    unfold rid_lt at h1 h2
    omega⟩

/-- The output of `add_next_day_returns` carries exactly the input rows
in the caller's original order. -/
theorem add_next_day_returns_restores (l : List RBar) :
    (add_next_day_returns l).map Prod.fst = l.enum := by
  have hperm : ((add_next_day_returns l).map Prod.fst).Perm l.enum := by
    refine ((List.perm_insertionSort ret_rid_le (returns_sorted l)).map Prod.fst).trans ?_
    rw [returns_sorted_map_fst]
    exact List.perm_insertionSort ret_key_le l.enum
  have hsorted : List.Sorted ret_rid_le (add_next_day_returns l) :=
    List.sorted_insertionSort ret_rid_le (returns_sorted l)
  have hpw : ((add_next_day_returns l).map Prod.fst).Pairwise
      (fun a b : ℕ × RBar => a.1 ≤ b.1) := (List.pairwise_map).mpr hsorted
  have hnodup : (((add_next_day_returns l).map Prod.fst).map Prod.fst).Nodup := by
    have hp2 := hperm.map (Prod.fst : ℕ × RBar → ℕ)
    rw [List.enum_map_fst] at hp2
    exact hp2.nodup_iff.mpr (List.nodup_range _)
  have hne : ((add_next_day_returns l).map Prod.fst).Pairwise
      (fun a b : ℕ × RBar => a.1 ≠ b.1) := (List.pairwise_map).mp hnodup
  have hlt : ((add_next_day_returns l).map Prod.fst).Pairwise rid_lt := by
    refine (hpw.and hne).imp ?_
    intro a b hab
    unfold rid_lt
    omega
  have henum : l.enum.Pairwise rid_lt := by
    have h1 : (l.enum.map Prod.fst).Pairwise (· < ·) := by
      rw [List.enum_map_fst]
      exact List.pairwise_lt_range _
    have h2 : l.enum.Pairwise (fun a b : ℕ × RBar => a.1 < b.1) :=
      List.pairwise_map.mp h1
    exact h2
  exact List.eq_of_perm_of_sorted hperm hlt henum

/-- C5: the forward-return engine computes, over each instrument's
chronologically sorted series (ties on identical (instrument, date)
broken by original input order via the `_original_index` sort key),
`next_open_ret[t] = open[t+1]/close[t] - 1` and
`next_close_ret[t] = close[t+1]/close[t] - 1`; both are `none` (NaN) —
never zero — at an instrument's last sorted row or when the current
close is zero or missing; and the output is returned in the caller's
original row order. -/
theorem next_day_returns_spec (l : List RBar) (i : ℕ) (hi : i < l.length) :
    (add_next_day_returns l).map Prod.fst = l.enum ∧
    (returns_sorted l).map Prod.fst = List.insertionSort ret_key_le l.enum ∧
    ((i + 1 < l.length ∧
      ((List.insertionSort ret_key_le l.enum).getD (i + 1) dfltE).2.ts =
        ((List.insertionSort ret_key_le l.enum).getD i dfltE).2.ts) →
      (∀ q c : ℚ,
        ((List.insertionSort ret_key_le l.enum).getD (i + 1) dfltE).2.openPx =
          some q →
        ((List.insertionSort ret_key_le l.enum).getD i dfltE).2.closePx =
          some c → c ≠ 0 →
        ((returns_sorted l).getD i dfltR).2.1 = some (q / c - 1)) ∧
      (∀ q c : ℚ,
        ((List.insertionSort ret_key_le l.enum).getD (i + 1) dfltE).2.closePx =
          some q →
        ((List.insertionSort ret_key_le l.enum).getD i dfltE).2.closePx =
          some c → c ≠ 0 →
        ((returns_sorted l).getD i dfltR).2.2 = some (q / c - 1)) ∧
      ((((List.insertionSort ret_key_le l.enum).getD i dfltE).2.closePx = none ∨
        ((List.insertionSort ret_key_le l.enum).getD i dfltE).2.closePx = some 0) →
        ((returns_sorted l).getD i dfltR).2.1 = none ∧
        ((returns_sorted l).getD i dfltR).2.2 = none)) ∧
    ((i + 1 = l.length ∨
      ((List.insertionSort ret_key_le l.enum).getD (i + 1) dfltE).2.ts ≠
        ((List.insertionSort ret_key_le l.enum).getD i dfltE).2.ts) →
      ((returns_sorted l).getD i dfltR).2.1 = none ∧
      ((returns_sorted l).getD i dfltR).2.2 = none) := by
  have hlen : (List.insertionSort ret_key_le l.enum).length = l.length := by
    rw [List.length_insertionSort, List.enum_length]
  refine ⟨add_next_day_returns_restores l, returns_sorted_map_fst l, ?_, ?_⟩
  · rintro ⟨hnext, hts⟩
    have hfst := next_in_group_fst (List.insertionSort ret_key_le l.enum) i
      (by rw [hlen]; exact hi)
    have hsnd := next_in_group_snd_some (List.insertionSort ret_key_le l.enum) i
      (by rw [hlen]; exact hnext) hts
    rw [returns_sorted_getD, hfst, hsnd]
    refine ⟨?_, ?_, ?_⟩
    · intro q c hq hc hc0
      simp only [Option.some_bind, hq, hc, forward_ret]
      rw [if_neg hc0]
    · intro q c hq hc hc0
      simp only [Option.some_bind, hq, hc, forward_ret]
      rw [if_neg hc0]
    · intro hcz
      rcases hcz with hcn | hc0
      · rw [hcn]
        exact ⟨forward_ret_none_close _, forward_ret_none_close _⟩
      · rw [hc0]
        exact ⟨forward_ret_zero_close _, forward_ret_zero_close _⟩
  · intro hlast
    have hfst := next_in_group_fst (List.insertionSort ret_key_le l.enum) i
      (by rw [hlen]; exact hi)
    have hsnd := next_in_group_snd_none (List.insertionSort ret_key_le l.enum) i
      (by rw [hlen]; exact hi)
      (by
        rcases hlast with h1 | h2
        · left; rw [hlen]; exact h1
        · right; exact h2)
    rw [returns_sorted_getD, hsnd]
    exact ⟨rfl, rfl⟩

/-- Witness for `next_day_returns_spec` on a concrete unsorted input:
the first sorted row of instrument 1 gets
`next_open_ret = 23/20 - 1`, and its chronologically last row gets
`none`. -/
theorem next_day_returns_spec_witness :
    ((returns_sorted ret_rows).getD 0 dfltR).2.1 = some (23 / 20 - 1) ∧
    ((returns_sorted ret_rows).getD 1 dfltR).2.1 = none := by
  constructor
  · exact ((next_day_returns_spec ret_rows 0 (by decide)).2.2.1
      ⟨by decide, by decide⟩).1 23 20 (by decide) (by decide) (by norm_num)
  · exact ((next_day_returns_spec ret_rows 1 (by decide)).2.2.2
      (Or.inr (by decide))).1

/-! ## Theorems: backtest simulator -/

/-- C9: the simulator leaves the strategy object's state unchanged: the
generators see the call's fill model substituted into the state (when
the attribute exists), the attribute is restored to its original value
afterward — also when generation raises — and re-invoking on the
post-call state with another fill model gives results identical to a
fresh invocation. -/
theorem backtest_preserves_strategy_state
    (gen : StratState → Except String (List SigRow)) (st : StratState)
    (ept : ExitPriceType) (fm₁ fm₂ : FillModel) (fee slip : ℚ) :
    (generate_signals gen st fm₁).1 =
      gen (if st.has_fill_model then { st with fill_model_val := some fm₁ }
           else st) ∧
    (generate_signals gen st fm₁).2 = st ∧
    (run_backtest_with_strategy gen st ept fm₁ fee slip).2 = st ∧
    run_backtest_with_strategy gen
        (run_backtest_with_strategy gen st ept fm₁ fee slip).2 ept fm₂ fee
        slip =
      run_backtest_with_strategy gen st ept fm₂ fee slip := by
  have hr : ∀ fm, (generate_signals gen st fm).2 = st := by
    intro fm
    unfold generate_signals
    cases st with
    | mk hasfm v => by_cases h : hasfm = true <;> simp [h]
  have hsnd : ∀ fm, (run_backtest_with_strategy gen st ept fm fee slip).2 = st := by
    intro fm
    have hr' := hr fm
    unfold run_backtest_with_strategy
    rcases hg : generate_signals gen st fm with ⟨sig, st'⟩
    rw [hg] at hr'
    cases sig <;> simpa using hr'
  refine ⟨rfl, hr fm₁, hsnd fm₁, ?_⟩
  rw [hsnd fm₁]

theorem trades_loop_cons_congr (lookup : ℕ × ℕ → Option BBar)
    (ept : ExitPriceType) (c : ℚ) (p : SigRow) {A B : List SigRow}
    (h : trades_loop lookup ept c A = trades_loop lookup ept c B) :
    trades_loop lookup ept c (p :: A) = trades_loop lookup ept c (p :: B) := by
  simp only [trades_loop, h]

theorem trades_loop_skip (lookup : ℕ × ℕ → Option BBar) (ept : ExitPriceType)
    (c : ℚ) (r : SigRow)
    (hbad : r.exitDate = none ∨
      (∀ d, r.exitDate = some d → lookup (r.bar.ts, d) = none)) :
    ∀ (pre post : List SigRow),
      trades_loop lookup ept c (pre ++ r :: post) =
        trades_loop lookup ept c
          (pre ++ { bar := r.bar, entry := false, exitDate := r.exitDate } ::
            post) := by
  intro pre
  induction pre with
  | nil =>
    intro post
    simp only [List.nil_append]
    by_cases he : r.entry = true
    · rcases hbad with hn | hl
      · simp [trades_loop, he, hn]
      · cases hx : r.exitDate with
        | none => simp [trades_loop, he, hx]
        | some d => simp [trades_loop, he, hx, hl d hx]
    · simp [trades_loop, he]
  | cons p pre' ih =>
    intro post
    exact trades_loop_cons_congr lookup ept c p (ih post)

/-- C8: an entry signal whose exit date does not resolve — no normalized
exit date, or no (ts_code, exit date) hit in the price lookup — produces
no trade and raises no error: the run equals the run with that signal
turned off, so the signal is silently skipped and every other trade is
unaffected. -/
theorem backtest_skips_unresolved (pre post : List SigRow) (r : SigRow)
    (ept : ExitPriceType) (fee slip : ℚ)
    (hbad : r.exitDate = none ∨
      (∀ d, r.exitDate = some d →
        price_lookup ((pre ++ r :: post).map SigRow.bar) (r.bar.ts, d) =
          none)) :
    run_backtest (pre ++ r :: post) ept fee slip =
      run_backtest
        (pre ++ { bar := r.bar, entry := false, exitDate := r.exitDate } ::
          post) ept fee slip := by
  unfold run_backtest
  have hbars : (pre ++
      { bar := r.bar, entry := false, exitDate := r.exitDate } :: post).map
        SigRow.bar = (pre ++ r :: post).map SigRow.bar := by simp
  rw [hbars, trades_loop_skip _ _ _ r hbad pre post]

/-- Witness for `backtest_skips_unresolved`: a resolvable signal next to
a signal whose exit date 99 matches no price row. -/
theorem backtest_skips_unresolved_witness :
    run_backtest [skip_row_good, skip_row_bad] ExitPriceType.next_close 0 0 =
      run_backtest [skip_row_good,
        { bar := skip_row_bad.bar, entry := false,
          exitDate := skip_row_bad.exitDate }] ExitPriceType.next_close 0 0 :=
  backtest_skips_unresolved [skip_row_good] [] skip_row_bad
    ExitPriceType.next_close 0 0
    (Or.inr (by
      intro d hd
      injection hd with h
      subst h
      decide))

theorem apply_cost_zero_trade (cb c : ℚ) (ts dt d : ℕ) (x : Option ℚ) :
    apply_cost cb
      ⟨ts, dt, c * (1 + 0 / 10000), d, x.map (fun e => e * (1 - 0 / 10000)),
        (x.map (fun e => e * (1 - 0 / 10000))).map
          (fun e => e / (c * (1 + 0 / 10000)) - 1)⟩ =
      ⟨ts, dt, c * (1 + cb / 10000), d, x.map (fun e => e * (1 - cb / 10000)),
        (x.map (fun e => e * (1 - cb / 10000))).map
          (fun e => e / (c * (1 + cb / 10000)) - 1)⟩ := by
  have hz1 : (1 : ℚ) + 0 / 10000 = 1 := by norm_num
  have hz2 : (1 : ℚ) - 0 / 10000 = 1 := by norm_num
  unfold apply_cost
  cases x <;> simp [hz1, hz2]

theorem trades_loop_cost (lookup : ℕ × ℕ → Option BBar) (ept : ExitPriceType)
    (cb : ℚ) : ∀ rows : List SigRow,
    trades_loop lookup ept cb rows =
      (trades_loop lookup ept 0 rows).map (List.map (apply_cost cb)) := by
  intro rows
  induction rows with
  | nil => rfl
  | cons row rest ih =>
    by_cases he : row.entry = true
    · cases hx : row.exitDate with
      | none => simp [trades_loop, he, hx, ih]
      | some d =>
        cases hl : lookup (row.bar.ts, d) with
        | none => simp [trades_loop, he, hx, hl, ih]
        | some exit_bar =>
          cases hc : row.bar.closePx with
          | none => simp [trades_loop, he, hx, hl, hc, Except.map]
          | some cpx =>
            cases h0 : trades_loop lookup ept 0 rest with
            | error e =>
              rw [h0] at ih
              simp only [Except.map] at ih
              simp only [trades_loop, he, hx, hl, hc, eq_self_iff_true,
                if_true, ih, h0, Except.map]
            | ok l =>
              rw [h0] at ih
              simp only [Except.map] at ih
              cases ept with
              | next_open =>
                simp only [trades_loop, he, hx, hl, hc, eq_self_iff_true,
                  if_true, ih, h0, Except.map]
                rw [← apply_cost_zero_trade cb cpx row.bar.ts row.bar.date d
                  exit_bar.openPx]
                rfl
              | next_close =>
                simp only [trades_loop, he, hx, hl, hc, eq_self_iff_true,
                  if_true, ih, h0, Except.map]
                rw [← apply_cost_zero_trade cb cpx row.bar.ts row.bar.date d
                  exit_bar.closePx]
                rfl
    · simp [trades_loop, he, ih]

theorem trade_sort_le_apply_cost (c : ℚ) (a b : BTrade) :
    trade_sort_le (apply_cost c a) (apply_cost c b) ↔ trade_sort_le a b :=
  Iff.rfl

theorem orderedInsert_map_cost (c : ℚ) (a : BTrade) :
    ∀ l : List BTrade,
      List.orderedInsert trade_sort_le (apply_cost c a) (l.map (apply_cost c)) =
        (List.orderedInsert trade_sort_le a l).map (apply_cost c)
  | [] => rfl
  | b :: l => by
    by_cases h : trade_sort_le a b
    · rw [List.map_cons, List.orderedInsert, List.orderedInsert,
        if_pos ((trade_sort_le_apply_cost c a b).mpr h), if_pos h]
      rfl
    · rw [List.map_cons, List.orderedInsert, List.orderedInsert,
        if_neg (fun hx => h ((trade_sort_le_apply_cost c a b).mp hx)),
        if_neg h, List.map_cons, orderedInsert_map_cost c a l]

theorem insertionSort_map_cost (c : ℚ) :
    ∀ l : List BTrade,
      List.insertionSort trade_sort_le (l.map (apply_cost c)) =
        (List.insertionSort trade_sort_le l).map (apply_cost c)
  | [] => rfl
  | a :: l => by
    rw [List.map_cons, List.insertionSort, List.insertionSort,
      insertionSort_map_cost c l, orderedInsert_map_cost]

/-- The cost run's trades are the zero-cost run's trades with the cost
formulas applied (same skips, same errors, same order). -/
theorem run_backtest_cost_map (rows : List SigRow) (ept : ExitPriceType)
    (fee slip : ℚ) :
    run_backtest rows ept fee slip =
      (run_backtest rows ept 0 0).map (List.map (apply_cost (fee + slip))) := by
  unfold run_backtest
  rw [show (0 : ℚ) + 0 = 0 from by norm_num,
    trades_loop_cost (price_lookup (rows.map SigRow.bar)) ept (fee + slip) rows]
  cases trades_loop (price_lookup (rows.map SigRow.bar)) ept 0 rows with
  | error e => rfl
  | ok l =>
    simp only [Except.map]
    rw [insertionSort_map_cost]

theorem price_lookup_go_some :
    ∀ (bars : List BBar) (acc : Option BBar) (k : ℕ × ℕ) (b : BBar),
      bars.foldl
        (fun acc x => if x.ts = k.1 ∧ x.date = k.2 then some x else acc) acc =
        some b →
      acc = some b ∨ (b ∈ bars ∧ b.ts = k.1 ∧ b.date = k.2)
  | [], _, _, _, h => Or.inl h
  | x :: xs, acc, k, b, h => by
    rw [List.foldl_cons] at h
    rcases price_lookup_go_some xs _ k b h with h1 | h2
    · by_cases hx : x.ts = k.1 ∧ x.date = k.2
      · rw [if_pos hx] at h1
        injection h1 with hb
        subst hb
        exact Or.inr ⟨List.mem_cons_self x xs, hx⟩
      · rw [if_neg hx] at h1
        exact Or.inl h1
    · exact Or.inr ⟨List.mem_cons_of_mem x h2.1, h2.2⟩

theorem price_lookup_mem (bars : List BBar) (k : ℕ × ℕ) (b : BBar)
    (h : price_lookup bars k = some b) :
    b ∈ bars ∧ b.ts = k.1 ∧ b.date = k.2 := by
  rcases price_lookup_go_some bars none k b h with h1 | h2
  · exact absurd h1 (by simp)
  · exact h2

theorem trades_loop_facts (lookup : ℕ × ℕ → Option BBar) (ept : ExitPriceType)
    (cb : ℚ) : ∀ (rows : List SigRow) (l : List BTrade),
      trades_loop lookup ept cb rows = Except.ok l →
      ∀ t ∈ l,
        t.ret_net = t.exit_px.map (fun e => e / t.entry_px - 1) ∧
        ∃ b, lookup (t.ts, t.exit_date) = some b := by
  intro rows
  induction rows with
  | nil =>
    intro l h t ht
    simp only [trades_loop] at h
    injection h with h'
    rw [← h'] at ht
    simp at ht
  | cons row rest ih =>
    intro l h t ht
    by_cases he : row.entry = true
    · cases hx : row.exitDate with
      | none =>
        simp only [trades_loop, he, hx, eq_self_iff_true, if_true] at h
        exact ih l h t ht
      | some d =>
        cases hl : lookup (row.bar.ts, d) with
        | none =>
          simp only [trades_loop, he, hx, hl, eq_self_iff_true, if_true] at h
          exact ih l h t ht
        | some exit_bar =>
          cases hc : row.bar.closePx with
          | none =>
            simp only [trades_loop, he, hx, hl, hc, eq_self_iff_true,
              if_true] at h
            cases h
          | some cpx =>
            cases h0 : trades_loop lookup ept cb rest with
            | error e =>
              simp only [trades_loop, he, hx, hl, hc, eq_self_iff_true,
                if_true, h0, Except.map] at h
              cases h
            | ok l' =>
              simp only [trades_loop, he, hx, hl, hc, eq_self_iff_true,
                if_true, h0, Except.map] at h
              injection h with h'
              rw [← h'] at ht
              rcases List.mem_cons.mp ht with rfl | ht'
              · exact ⟨rfl, exit_bar, hl⟩
              · exact ih l' h0 t ht'
    · simp only [trades_loop, he, Bool.false_eq_true, if_false] at h
      exact ih l h t ht

theorem run_backtest_facts (rows : List SigRow) (ept : ExitPriceType)
    (fee slip : ℚ) (l : List BTrade)
    (h : run_backtest rows ept fee slip = Except.ok l) :
    ∀ t ∈ l,
      t.ret_net = t.exit_px.map (fun e => e / t.entry_px - 1) ∧
      t.exit_date ∈ equity_dates (rows.map SigRow.bar) := by
  unfold run_backtest at h
  cases h0 : trades_loop (price_lookup (rows.map SigRow.bar)) ept (fee + slip)
      rows with
  | error e =>
    rw [h0] at h
    simp [Except.map] at h
  | ok l' =>
    rw [h0] at h
    simp only [Except.map] at h
    injection h with h'
    intro t ht
    rw [← h'] at ht
    have ht' : t ∈ l' :=
      (List.perm_insertionSort trade_sort_le l').mem_iff.mp ht
    have hf := trades_loop_facts _ _ _ rows l' h0 t ht'
    refine ⟨hf.1, ?_⟩
    rcases hf.2 with ⟨b, hb⟩
    have hm := price_lookup_mem _ _ _ hb
    unfold equity_dates
    rw [Finset.mem_sort, List.mem_toFinset]
    exact List.mem_map.mpr ⟨b, hm.1, hm.2.2⟩

theorem foldl_equity_some (f : BTrade → ℚ) :
    ∀ (tr : List BTrade), (∀ t ∈ tr, t.ret_net = some (f t)) → ∀ a : ℚ,
      tr.foldl (fun acc t => equity_mul acc t.ret_net) (some a) =
        some (a * (tr.map (fun t => 1 + f t)).prod)
  | [], _, a => by simp
  | t :: tr, hf, a => by
    have ht := hf t (List.mem_cons_self t tr)
    simp only [List.foldl_cons, ht]
    rw [show equity_mul (some a) (some (f t)) = some (a * (1 + f t)) from rfl]
    rw [foldl_equity_some f tr
      (fun t' ht' => hf t' (List.mem_cons_of_mem t ht')) (a * (1 + f t))]
    simp only [List.map_cons, List.prod_cons]
    rw [mul_assoc]

theorem final_equity_foldl (f : BTrade → ℚ) :
    ∀ (dates : List ℕ) (tr : List BTrade),
      (∀ t ∈ tr, t.ret_net = some (f t)) → ∀ a : ℚ,
      dates.foldl
        (fun acc d =>
          (tr.filter (fun t => t.exit_date == d)).foldl
            (fun x t => equity_mul x t.ret_net) acc) (some a) =
      some (dates.foldl
        (fun acc d =>
          acc * ((tr.filter (fun t => t.exit_date == d)).map
            (fun t => 1 + f t)).prod) a)
  | [], _, _, a => by simp
  | d :: ds, tr, hf, a => by
    simp only [List.foldl_cons]
    rw [foldl_equity_some f (tr.filter (fun t => t.exit_date == d))
      (fun t ht => hf t (List.mem_of_mem_filter ht)) a]
    exact final_equity_foldl f ds tr hf _

theorem foldl_mul_prod (g : ℕ → ℚ) :
    ∀ (ds : List ℕ) (a : ℚ),
      ds.foldl (fun acc d => acc * g d) a = a * (ds.map g).prod
  | [], a => by simp
  | d :: ds, a => by
    simp only [List.foldl_cons, List.map_cons, List.prod_cons]
    rw [foldl_mul_prod g ds (a * g d), mul_assoc]

theorem prod_filter_split (h : BTrade → ℚ) (p q : BTrade → Bool)
    (hdisj : ∀ t, ¬(p t = true ∧ q t = true)) :
    ∀ tr : List BTrade,
      ((tr.filter (fun t => p t || q t)).map h).prod =
        ((tr.filter p).map h).prod * ((tr.filter q).map h).prod
  | [] => by simp
  | t :: tr => by
    by_cases hp : p t = true
    · have hq : q t = false := by
        cases hqv : q t
        · rfl
        · exact absurd ⟨hp, hqv⟩ (hdisj t)
      simp only [List.filter_cons, hp, hq, Bool.true_or, if_true,
        Bool.false_eq_true, if_false, List.map_cons, List.prod_cons]
      rw [prod_filter_split h p q hdisj tr, mul_assoc]
    · have hp' : p t = false := by
        cases hpv : p t
        · rfl
        · exact absurd hpv hp
      by_cases hq : q t = true
      · simp only [List.filter_cons, hp', hq, Bool.false_or, if_true,
          Bool.false_eq_true, if_false, List.map_cons, List.prod_cons]
        rw [prod_filter_split h p q hdisj tr]
        ring
      · have hq' : q t = false := by
          cases hqv : q t
          · rfl
          · exact absurd hqv hq
        simp only [List.filter_cons, hp', hq', Bool.or_self,
          Bool.false_eq_true, if_false]
        exact prod_filter_split h p q hdisj tr

theorem prod_split_by_date (h : BTrade → ℚ) (d : ℕ) (tr : List BTrade) :
    (tr.map h).prod =
      ((tr.filter (fun t => t.exit_date == d)).map h).prod *
        ((tr.filter (fun t => !(t.exit_date == d))).map h).prod := by
  have hsplit := prod_filter_split h (fun t => t.exit_date == d)
    (fun t => !(t.exit_date == d))
    (by
      intro t ht
      have h1 : (t.exit_date == d) = true := ht.1
      have h2 : (!(t.exit_date == d)) = true := ht.2
      rw [h1] at h2
      cases h2) tr
  rw [← hsplit]
  congr 1
  have : tr.filter (fun t => (t.exit_date == d) || !(t.exit_date == d)) = tr := by
    apply List.filter_eq_self.mpr
    intro t _
    cases t.exit_date == d <;> rfl
  rw [this]

theorem prod_partition_by_dates (h : BTrade → ℚ) :
    ∀ (dates : List ℕ) (tr : List BTrade), dates.Nodup →
      (∀ t ∈ tr, t.exit_date ∈ dates) →
      (dates.map (fun d =>
        ((tr.filter (fun t => t.exit_date == d)).map h).prod)).prod =
        (tr.map h).prod
  | [], tr, _, hmem => by
    have htr : tr = [] :=
      List.eq_nil_iff_forall_not_mem.mpr (fun t ht => by simpa using hmem t ht)
    rw [htr]
    simp
  | d :: ds, tr, hnd, hmem => by
    simp only [List.map_cons, List.prod_cons]
    rw [prod_split_by_date h d tr]
    have hcongr : ds.map (fun d' =>
        ((tr.filter (fun t => t.exit_date == d')).map h).prod) =
        ds.map (fun d' =>
          (((tr.filter (fun t => !(t.exit_date == d))).filter
            (fun t => t.exit_date == d')).map h).prod) := by
      apply List.map_congr_left
      intro d' hd'
      have hdd : d' ≠ d := by
        intro he
        rw [he] at hd'
        exact (List.nodup_cons.mp hnd).1 hd'
      rw [List.filter_filter]
      have hfeq : tr.filter (fun t => t.exit_date == d') =
          tr.filter (fun t => (t.exit_date == d') && !(t.exit_date == d)) := by
        apply List.filter_congr
        intro t _
        cases hbeq : (t.exit_date == d')
        · simp
        · have hdt : t.exit_date = d' := by simpa using hbeq
          have hnd2 : (t.exit_date == d) = false := by
            simp [hdt, hdd]
          simp [hnd2]
      rw [hfeq]
    rw [hcongr, prod_partition_by_dates h ds
      (tr.filter (fun t => !(t.exit_date == d))) (List.nodup_cons.mp hnd).2
      (by
        intro t ht
        have h1 := hmem t (List.mem_of_mem_filter ht)
        have h2 := List.of_mem_filter ht
        have h3 : t.exit_date ≠ d := by simpa using h2
        rcases List.mem_cons.mp h1 with he | hm
        · exact absurd he h3
        · exact hm)]

theorem prod_map_mul_pow (g : BTrade → ℚ) (ρ : ℚ) :
    ∀ tr : List BTrade,
      (tr.map (fun t => g t * ρ)).prod = (tr.map g).prod * ρ ^ tr.length
  | [] => by simp
  | t :: tr => by
    simp only [List.map_cons, List.prod_cons, List.length_cons]
    rw [prod_map_mul_pow g ρ tr, pow_succ]
    ring

/-- C4: with total cost `c = fee + slippage` basis points, every
recorded trade's entry price is the base (zero-cost) entry price times
`1 + c/10000`, its exit price is the base exit price times
`1 - c/10000`, and its net return is `exit/entry - 1` on the recorded
trade prices; consequently, for positive base prices, a strictly
positive total cost gives every trade a strictly smaller net return and
a strictly smaller final equity than the zero-cost run on the same
signals. -/
theorem run_backtest_cost (rows : List SigRow) (ept : ExitPriceType)
    (fee slip : ℚ) (t0 tc : List BTrade)
    (h0 : run_backtest rows ept 0 0 = Except.ok t0)
    (hc : run_backtest rows ept fee slip = Except.ok tc) :
    tc.length = t0.length ∧
    (∀ i, i < t0.length →
      (tc.getD i dfltT).ts = (t0.getD i dfltT).ts ∧
      (tc.getD i dfltT).entry_date = (t0.getD i dfltT).entry_date ∧
      (tc.getD i dfltT).exit_date = (t0.getD i dfltT).exit_date ∧
      (tc.getD i dfltT).entry_px =
        (t0.getD i dfltT).entry_px * (1 + (fee + slip) / 10000) ∧
      (tc.getD i dfltT).exit_px =
        (t0.getD i dfltT).exit_px.map
          (fun e => e * (1 - (fee + slip) / 10000)) ∧
      (tc.getD i dfltT).ret_net =
        (tc.getD i dfltT).exit_px.map
          (fun e => e / (tc.getD i dfltT).entry_px - 1)) ∧
    (0 < fee + slip →
      (∀ i, i < t0.length → 0 < (t0.getD i dfltT).entry_px ∧
        ∃ e, (t0.getD i dfltT).exit_px = some e ∧ 0 < e) →
      (∀ i, i < t0.length → ∃ rc r0 : ℚ,
        (tc.getD i dfltT).ret_net = some rc ∧
        (t0.getD i dfltT).ret_net = some r0 ∧ rc < r0) ∧
      (0 < t0.length → ∃ qc q0 : ℚ,
        final_equity (equity_dates (rows.map SigRow.bar)) tc = some qc ∧
        final_equity (equity_dates (rows.map SigRow.bar)) t0 = some q0 ∧
        qc < q0)) := by
  have hmap : tc = t0.map (apply_cost (fee + slip)) := by
    have hh := run_backtest_cost_map rows ept fee slip
    rw [hc, h0] at hh
    simp only [Except.map] at hh
    injection hh
  subst hmap
  have hlen : (t0.map (apply_cost (fee + slip))).length = t0.length := by simp
  have hgd : ∀ i, i < t0.length →
      (t0.map (apply_cost (fee + slip))).getD i dfltT =
        apply_cost (fee + slip) (t0.getD i dfltT) := by
    intro i hi
    have hi' : i < (t0.map (apply_cost (fee + slip))).length := by
      rw [hlen]; exact hi
    rw [List.getD_eq_getElem _ dfltT hi', List.getD_eq_getElem t0 dfltT hi,
      List.getElem_map]
  have facts0 := run_backtest_facts rows ept 0 0 t0 h0
  have factsc := run_backtest_facts rows ept fee slip _ hc
  refine ⟨hlen, ?_, ?_⟩
  · intro i hi
    rw [hgd i hi]
    exact ⟨rfl, rfl, rfl, rfl, rfl, rfl⟩
  · intro hcb hpos
    have ht10k : 0 < (fee + slip) / 10000 := by positivity
    have h1t : 0 < 1 + (fee + slip) / 10000 := by linarith
    have hposm : ∀ t ∈ t0, 0 < t.entry_px ∧
        ∃ e, t.exit_px = some e ∧ 0 < e := by
      intro t ht
      obtain ⟨i, hi, hti⟩ := List.mem_iff_getElem.mp ht
      have hh := hpos i hi
      rw [List.getD_eq_getElem t0 dfltT hi, hti] at hh
      exact hh
    have hsome0 : ∀ t ∈ t0, t.ret_net = some (trade_ret_val t) := by
      intro t ht
      obtain ⟨hpe, e, hex, hepos⟩ := hposm t ht
      have hr := (facts0 t ht).1
      rw [hex] at hr
      unfold trade_ret_val
      rw [hr]
      rfl
    have hfval : ∀ t ∈ t0, ∀ e : ℚ, t.exit_px = some e →
        trade_ret_val t = e / t.entry_px - 1 := by
      intro t ht e he
      have hr := (facts0 t ht).1
      rw [he] at hr
      unfold trade_ret_val
      rw [hr]
      rfl
    have hfac : ∀ t ∈ t0, ∀ e : ℚ, t.exit_px = some e →
        trade_ret_val (apply_cost (fee + slip) t) =
          (e * (1 - (fee + slip) / 10000)) /
            (t.entry_px * (1 + (fee + slip) / 10000)) - 1 := by
      intro t _ e he
      unfold trade_ret_val apply_cost
      rw [he]
      rfl
    constructor
    · intro i hi
      have hmem : t0.getD i dfltT ∈ t0 := by
        rw [List.getD_eq_getElem t0 dfltT hi]
        exact List.getElem_mem hi
      obtain ⟨hpe, e, hex, hepos⟩ := hposm _ hmem
      have hr0 := (facts0 _ hmem).1
      rw [hex] at hr0
      have hrc : ((t0.map (apply_cost (fee + slip))).getD i dfltT).ret_net =
          some ((e * (1 - (fee + slip) / 10000)) /
            ((t0.getD i dfltT).entry_px * (1 + (fee + slip) / 10000)) - 1) := by
        rw [hgd i hi]
        unfold apply_cost
        rw [hex]
        rfl
      refine ⟨_, _, hrc, hr0, ?_⟩
      have hlt : (e * (1 - (fee + slip) / 10000)) /
          ((t0.getD i dfltT).entry_px * (1 + (fee + slip) / 10000)) <
          e / (t0.getD i dfltT).entry_px := by
        rw [div_lt_div_iff₀ (mul_pos hpe h1t) hpe]
        nlinarith [mul_pos (mul_pos hepos hpe) ht10k]
      linarith
    · intro hlen0
      have hnodup : (equity_dates (rows.map SigRow.bar)).Nodup := by
        unfold equity_dates
        exact Finset.sort_nodup _ _
      have hmem0 : ∀ t ∈ t0, t.exit_date ∈
          equity_dates (rows.map SigRow.bar) := fun t ht => (facts0 t ht).2
      have hmemc : ∀ t ∈ t0.map (apply_cost (fee + slip)), t.exit_date ∈
          equity_dates (rows.map SigRow.bar) := fun t ht => (factsc t ht).2
      have hsomec : ∀ t ∈ t0.map (apply_cost (fee + slip)),
          t.ret_net = some (trade_ret_val t) := by
        intro t ht
        obtain ⟨t', ht', rfl⟩ := List.mem_map.mp ht
        obtain ⟨hpe, e, hex, hepos⟩ := hposm t' ht'
        have hh : (apply_cost (fee + slip) t').ret_net =
            some ((e * (1 - (fee + slip) / 10000)) /
              (t'.entry_px * (1 + (fee + slip) / 10000)) - 1) := by
          unfold apply_cost
          rw [hex]
          rfl
        unfold trade_ret_val
        rw [hh]
        rfl
      have hq0 : final_equity (equity_dates (rows.map SigRow.bar)) t0 =
          some ((t0.map (fun t => 1 + trade_ret_val t)).prod) := by
        unfold final_equity
        rw [final_equity_foldl trade_ret_val _ t0 hsome0 1, foldl_mul_prod,
          one_mul,
          prod_partition_by_dates (fun t => 1 + trade_ret_val t) _ t0 hnodup
            hmem0]
      have hqc : final_equity (equity_dates (rows.map SigRow.bar))
          (t0.map (apply_cost (fee + slip))) =
          some (((t0.map (apply_cost (fee + slip))).map
            (fun t => 1 + trade_ret_val t)).prod) := by
        unfold final_equity
        rw [final_equity_foldl trade_ret_val _ _ hsomec 1, foldl_mul_prod,
          one_mul,
          prod_partition_by_dates (fun t => 1 + trade_ret_val t) _ _ hnodup
            hmemc]
      have hρ : ((t0.map (apply_cost (fee + slip))).map
          (fun t => 1 + trade_ret_val t)).prod =
          (t0.map (fun t => 1 + trade_ret_val t)).prod *
            ((1 - (fee + slip) / 10000) / (1 + (fee + slip) / 10000)) ^
              t0.length := by
        rw [List.map_map]
        have hcg : t0.map ((fun t => 1 + trade_ret_val t) ∘
            apply_cost (fee + slip)) =
            t0.map (fun t => (1 + trade_ret_val t) *
              ((1 - (fee + slip) / 10000) / (1 + (fee + slip) / 10000))) := by
          apply List.map_congr_left
          intro t ht
          obtain ⟨hpe, e, hex, hepos⟩ := hposm t ht
          have h1 := hfac t ht e hex
          have h2 := hfval t ht e hex
          show 1 + trade_ret_val (apply_cost (fee + slip) t) = _
          rw [h1, h2]
          field_simp
        rw [hcg, prod_map_mul_pow]
      have hq0pos : 0 < (t0.map (fun t => 1 + trade_ret_val t)).prod := by
        apply List.prod_pos
        intro a ha
        obtain ⟨t, ht, rfl⟩ := List.mem_map.mp ha
        obtain ⟨hpe, e, hex, hepos⟩ := hposm t ht
        rw [hfval t ht e hex]
        have : 0 < e / t.entry_px := div_pos hepos hpe
        linarith
      refine ⟨_, _, hqc, hq0, ?_⟩
      rw [hρ]
      have habs : |(1 - (fee + slip) / 10000) / (1 + (fee + slip) / 10000)| <
          1 := by
        rw [abs_div, abs_of_pos h1t, div_lt_one h1t, abs_lt]
        constructor <;> linarith
      have hn0 : t0.length ≠ 0 := Nat.pos_iff_ne_zero.mp hlen0
      calc (t0.map (fun t => 1 + trade_ret_val t)).prod *
            ((1 - (fee + slip) / 10000) / (1 + (fee + slip) / 10000)) ^
              t0.length
          ≤ (t0.map (fun t => 1 + trade_ret_val t)).prod *
            |(1 - (fee + slip) / 10000) / (1 + (fee + slip) / 10000)| ^
              t0.length := by
            apply mul_le_mul_of_nonneg_left _ (le_of_lt hq0pos)
            rw [← abs_pow]
            exact le_abs_self _
        _ < (t0.map (fun t => 1 + trade_ret_val t)).prod * 1 := by
            apply mul_lt_mul_of_pos_left _ hq0pos
            exact pow_lt_one₀ (abs_nonneg _) habs hn0
        _ = (t0.map (fun t => 1 + trade_ret_val t)).prod := mul_one _

/-- Witness for `run_backtest_cost`: the spec's two-bar scenario with
10bps fee + 10bps slippage versus the zero-cost run — the costed run's
final equity is strictly smaller. -/
theorem run_backtest_cost_witness :
    ∃ qc q0 : ℚ,
      final_equity (equity_dates (cost_rows.map SigRow.bar)) cost_tc =
        some qc ∧
      final_equity (equity_dates (cost_rows.map SigRow.bar)) cost_t0 =
        some q0 ∧
      qc < q0 := by
  have h := (run_backtest_cost cost_rows ExitPriceType.next_close 10 10
    cost_t0 cost_tc rfl rfl).2.2 (by norm_num) ?hpos
  case hpos =>
    intro i hi
    have hi0 : i = 0 := by
      simp only [cost_t0, List.length_cons, List.length_nil] at hi
      omega
    subst hi0
    refine ⟨by norm_num [cost_t0], 23 / 2 * (1 - (0 + 0) / 10000), ?_, by norm_num⟩
    norm_num [cost_t0]
  exact h.2 (by norm_num [cost_t0])

end LimitupLab
